import Mathlib

/-!
Shallow embedding of the core of the slaick conversation bot, for verifying the
natural-language specification against the code.

Embedded components (translated from the Python source):
* `split_message` (src/lib/formatting.py) — the ChunkSplitter.
* `messages_within_context_window` (src/lib/llm.py) — the TokenBudgetTrimmer.
* `consumeDeltas` / `consume` (src/slaick.py, `_consume_litellm_stream`) —
  the StreamConsumer state machine, with flush spawning/joining and the terminal
  flush recorded as an event trace.
* `send_long_message_in_chunks` (src/slaick.py, `_send_long_message_in_chunks`) —
  chunked delivery of oversized text.
* `process_message_decision` (src/slaick.py, `_process_message`) — the
  orchestrator's too-long / open-stream branch.

Text is modelled as `List Char`.  Machine integers do not overflow in the paths
modelled here, so token counts are `Nat` and budgets are `Int` (the budget
`max_input_tokens - max_tokens - 1 - 100` can be negative).
-/

namespace Slaick

/-- Whitespace predicate used by Python's `str.strip()`: exactly the 29
characters for which CPython's `str.isspace()` is true — the ASCII ranges
U+0009–U+000D and U+001C–U+0020, NEL (U+0085), NBSP (U+00A0), Ogham space
(U+1680), the typographic spaces U+2000–U+200A, the line/paragraph separators
U+2028/U+2029, and U+202F, U+205F, U+3000. -/
def isSpace (c : Char) : Bool :=
  ('\x09' ≤ c && c ≤ '\x0d') || ('\x1c' ≤ c && c ≤ '\x20') ||
  c = '\x85' || c = '\xa0' || c = '\u1680' ||
  ('\u2000' ≤ c && c ≤ '\u200a') || c = '\u2028' || c = '\u2029' ||
  c = '\u202f' || c = '\u205f' || c = '\u3000'

/-- Python `text.split("\n")`: split on every newline, keeping empty pieces;
the empty string yields `[""]`. -/
def pySplitNl : List Char → List (List Char)
  | [] => [[]]
  | c :: cs =>
    if c = '\n' then [] :: pySplitNl cs
    else
      match pySplitNl cs with
      | [] => [[c]]
      | l :: ls => (c :: l) :: ls

/-- Python `s.strip()`: drop whitespace from both ends. -/
def pyStrip (l : List Char) : List Char :=
  ((l.dropWhile isSpace).reverse.dropWhile isSpace).reverse

/-- The `while len(line) > max_chunk_length` loop of `split_message`
(src/lib/formatting.py:97-99): peel fixed-size pieces off an over-long line and
return them with the final remainder.  For `m = 0` the Python loop does not
terminate; the claims all assume `max_chunk_length ≥ 1`, so that case is guarded
out and immaterial. -/
def hardSplitAux (m : Nat) : Nat → List Char → List (List Char) × List Char
  | 0, line => ([], line)
  | fuel + 1, line =>
    if m = 0 ∨ line.length ≤ m then ([], line)
    else
      let rest := hardSplitAux m fuel (line.drop m)
      (line.take m :: rest.1, rest.2)

/-- `hardSplit m line` with enough fuel: at most `line.length` pieces are ever
peeled off, so `line.length` steps always suffice. -/
def hardSplit (m : Nat) (line : List Char) : List (List Char) × List Char :=
  hardSplitAux m line.length line

/-- The `for line in message.split("\n")` loop of `split_message`
(src/lib/formatting.py:90-104), with `cc` the running `current_chunk`.
The final `if current_chunk: chunks.append(current_chunk.strip())` is the base
case. -/
def splitLoop (m : Nat) : List (List Char) → List Char → List (List Char)
  | [], cc => if cc ≠ [] then [pyStrip cc] else []
  | line :: rest, cc =>
    if cc.length + line.length + 1 > m then
      (if cc ≠ [] then [pyStrip cc] else []) ++
        (hardSplit m line).1 ++
        splitLoop m rest ((hardSplit m line).2 ++ ['\n'])
    else
      splitLoop m rest (cc ++ line ++ ['\n'])

/-- `MAX_CHUNK_LENGTH = 3000` (src/lib/formatting.py:11). -/
def MAX_CHUNK_LENGTH : Nat := 3000

/-- `split_message(message, max_chunk_length)` (src/lib/formatting.py:61-106). -/
def split_message (message : List Char) (max_chunk_length : Nat) :
    List (List Char) :=
  splitLoop max_chunk_length (pySplitNl message) []

/-- Spec-side comparator: concatenate chunks with the line separator `"\n"`
re-inserted between consecutive chunks ("rejoining chunks (with original
separators)"). -/
def rejoin : List (List Char) → List Char
  | [] => []
  | [c] => c
  | c :: rest => c ++ '\n' :: rejoin rest

/-- Proof-side helper: the `current_chunk` value corresponding to a list of
already-accumulated lines (each accumulated line is followed by `"\n"`). -/
def pendingChunk (ps : List (List Char)) : List Char :=
  if ps = [] then [] else rejoin ps ++ ['\n']

/-! ### TokenBudgetTrimmer (src/lib/llm.py, `messages_within_context_window`) -/

/-- Message roles. -/
inductive Role
  | system
  | user
  | assistant
  | function
deriving DecidableEq

/-- A conversation message; the content is opaque text, token counting is an
externally supplied capability `Msg → Nat`. -/
structure Msg where
  role : Role
  content : List Char
deriving DecidableEq

/-- `count_tokens(msgs)` (src/lib/llm.py:125-126): sum of the per-message token
counts. -/
def count_tokens (c : Msg → Nat) (msgs : List Msg) : Nat :=
  (msgs.map c).sum

/-- The `while count_tokens(messages_to_trim) + sysTok > max_context_tokens`
loop of `messages_within_context_window` (src/lib/llm.py:135-146): pop the
oldest trimmable message while over budget; `break` (return the empty list)
when none remain. -/
def trimLoop (c : Msg → Nat) (sysTok : Nat) (budget : Int) :
    List Msg → List Msg
  | [] => []
  | m :: rest =>
    if (count_tokens c (m :: rest) + sysTok : Int) > budget then
      trimLoop c sysTok budget rest
    else
      m :: rest

/-- `max_context_tokens` derivation (src/lib/llm.py:118-121):
`litellm.model_cost[model]["max_input_tokens"] - max_tokens - 1`, minus 100 when
a function-call module is configured. -/
def max_context_tokens (max_input_tokens max_response_tokens : Int)
    (function_call_module_name : List Char) : Int :=
  max_input_tokens - max_response_tokens - 1 -
    (if function_call_module_name ≠ [] then 100 else 0)

/-- `messages_within_context_window(messages, ...)` (src/lib/llm.py:107-159):
keep the first system message (dropping every other system message), trim the
oldest non-system messages while over budget, and return
`(final_messages, final_token_count, max_context_tokens)`. -/
def messages_within_context_window (c : Msg → Nat) (budget : Int)
    (messages : List Msg) : List Msg × Nat × Int :=
  let system_message := messages.find? (fun m => m.role == Role.system)
  let messages_to_trim := messages.filter (fun m => !(m.role == Role.system))
  let sysTok : Nat :=
    match system_message with
    | some s => c s
    | none => 0
  let trimmed := trimLoop c sysTok budget messages_to_trim
  let final_messages :=
    (match system_message with
     | some s => [s]
     | none => []) ++ trimmed
  (final_messages, count_tokens c final_messages, budget)

/-! ### StreamConsumer (src/slaick.py, `_consume_litellm_stream`) -/

/-- One streamed chunk: `time` is `spent_seconds` when the chunk is received,
`hasChoices` models `chunk.choices` being nonempty, `content` is
`delta.content`, and `function_call` carries the name/arguments fragments
(each `delta["function_call"].get(k) or ""` already applied). -/
structure Delta where
  time : Nat
  hasChoices : Bool
  content : Option (List Char)
  function_call : Option (List Char × List Char)
deriving DecidableEq

/-- The mutable loop state of `_consume_litellm_stream`:
`assistant_reply["content"]`, `word_count`, and the `function_call` buffer. -/
structure StreamState where
  content : List Char
  word_count : Nat
  fc_name : List Char
  fc_args : List Char
deriving DecidableEq

/-- Initial loop state (src/slaick.py:656-660). -/
def initState : StreamState := ⟨[], 0, [], []⟩

/-- Observable actions of one consumption run: spawning a background flush
thread (src/slaick.py:689-692), joining all spawned threads
(src/slaick.py:700-705 and the `finally` block 730-735), and the terminal
synchronous flush carrying the text it writes (src/slaick.py:718-727 with
`loading_character = ""`). -/
inductive Event
  | spawnFlush
  | joinAll
  | finalFlush (text : List Char)
deriving DecidableEq

/-- The body of the `for chunk in stream` loop for one delta
(src/slaick.py:664-698): `none` means `raise TimeoutError()`; otherwise the
updated state is returned together with whether this delta crossed the
20-word flush threshold and spawned a background flush thread. -/
def consumeStep (timeout : Nat) (d : Delta) (st : StreamState) :
    Option (StreamState × Bool) :=
  if timeout < d.time then none
  else if !d.hasChoices then some (st, false)
  else
    match d.content with
    | some t =>
      let st1 : StreamState :=
        { st with content := st.content ++ t, word_count := st.word_count + 1 }
      if st1.word_count ≥ 20 then some ({ st1 with word_count := 0 }, true)
      else some (st1, false)
    | none =>
      match d.function_call with
      | some fc =>
        if st.content = [] then
          some ({ st with fc_name := st.fc_name ++ fc.1,
                          fc_args := st.fc_args ++ fc.2 }, false)
        else some (st, false)
      | none => some (st, false)

/-- The `for chunk in stream` loop (src/slaick.py:663-698).  Returns the final
state, the spawn events in order, and whether `TimeoutError` was raised. -/
def consumeDeltas (timeout : Nat) :
    List Delta → StreamState → StreamState × List Event × Bool
  | [], st => (st, [], false)
  | d :: rest, st =>
    match consumeStep timeout d st with
    | none => (st, [], true)
    | some (st1, spawned) =>
      let r := consumeDeltas timeout rest st1
      (r.1,
       if spawned then Event.spawnFlush :: r.2.1 else r.2.1,
       r.2.2)

/-- Result of one consumption run. -/
inductive Outcome
  | timeout
  | functionCall (name args : List Char)
  | done
deriving DecidableEq

/-- `_consume_litellm_stream` as a whole (src/slaick.py:620-740): run the loop;
on `TimeoutError` the `finally` block still joins every spawned thread; on
normal exit the threads are joined, then either the function-call branch is
taken (`function_call["name"] != ""`) or the terminal synchronous flush writes
the accumulated content with an empty loading suffix, and the `finally` block
joins again. -/
def consume (timeout : Nat) (deltas : List Delta) : List Event × Outcome :=
  let r := consumeDeltas timeout deltas initState
  if r.2.2 then
    (r.2.1 ++ [Event.joinAll], Outcome.timeout)
  else if r.1.fc_name ≠ [] then
    (r.2.1 ++ [Event.joinAll, Event.joinAll],
      Outcome.functionCall r.1.fc_name r.1.fc_args)
  else
    (r.2.1 ++ [Event.joinAll, Event.finalFlush r.1.content, Event.joinAll],
      Outcome.done)

/-- The text a single delta contributes to `assistant_reply["content"]`. -/
def deltaText (d : Delta) : List Char :=
  if d.hasChoices then
    match d.content with
    | some t => t
    | none => []
  else []

/-- Ordered concatenation of all content deltas of chunks that have choices:
the value `assistant_reply["content"]` accumulates to. -/
def streamContent (deltas : List Delta) : List Char :=
  (deltas.filterMap (fun d => if d.hasChoices then d.content else none)).flatten

/-! ### Chunked delivery (src/slaick.py, `_send_long_message_in_chunks`) -/

/-- A Slack call made for one chunk: `update` is `chat_update` on the
in-progress message, `post` is `chat_postMessage` as a follow-up reply in the
same thread. -/
inductive ChunkDelivery
  | update (text : List Char)
  | post (text : List Char)
deriving DecidableEq

/-- The `for chunk in chunks` loop (src/slaick.py:571-587): the first chunk
updates the original message with `chunk + loading_character`; every later
chunk is posted as a reply with `chunk + (loading_character if chunk !=
chunks[-1] else "")`. -/
def deliverChunks (loading_character : List Char) :
    List (List Char) → List ChunkDelivery
  | [] => []
  | c :: rest =>
    ChunkDelivery.update (c ++ loading_character) ::
      rest.map (fun ch =>
        ChunkDelivery.post
          (ch ++ (if ch = (c :: rest).getLastD [] then [] else loading_character)))

/-- `_send_long_message_in_chunks` (src/slaick.py:533-594): split with the
default `MAX_CHUNK_LENGTH` and deliver the chunks. -/
def send_long_message_in_chunks (text : List Char)
    (loading_character : List Char) : List ChunkDelivery :=
  deliverChunks loading_character (split_message text MAX_CHUNK_LENGTH)

/-- The loading suffix used while streaming (src/slaick.py:661). -/
def loadingCharacter : List Char := (" ... :writing_hand:").toList

/-! ### Orchestrator branch (src/slaick.py, `_process_message`) -/

/-- What `_process_message` does after trimming (src/slaick.py:263-288). -/
inductive TurnAction
  | tooLongNotice
  | openStream (msgs : List Msg)
deriving DecidableEq

/-- The too-long / open-stream decision of `_process_message`
(src/slaick.py:270-288): if `num_context_tokens > max_context_tokens` the
warning notice is sent, otherwise the completion stream is opened on the
trimmed window. -/
def process_message_decision (c : Msg → Nat) (budget : Int)
    (msgs : List Msg) : TurnAction :=
  let r := messages_within_context_window c budget msgs
  if (r.2.1 : Int) > r.2.2 then TurnAction.tooLongNotice
  else TurnAction.openStream r.1

/-! ## Lemmas about the chunk splitter -/

theorem pySplitNl_ne_nil (l : List Char) : pySplitNl l ≠ [] := by
  cases l with
  | nil => simp [pySplitNl]
  | cons c cs =>
    simp only [pySplitNl]
    split
    · simp
    · split <;> simp

theorem rejoin_cons_of_ne_nil (c : List Char) (rest : List (List Char))
    (h : rest ≠ []) : rejoin (c :: rest) = c ++ '\n' :: rejoin rest := by
  cases rest with
  | nil => exact absurd rfl h
  | cons y ys => rfl

theorem rejoin_pySplitNl (l : List Char) : rejoin (pySplitNl l) = l := by
  induction l with
  | nil => rfl
  | cons c cs ih =>
    simp only [pySplitNl]
    by_cases hc : c = '\n'
    · rw [if_pos hc, rejoin_cons_of_ne_nil _ _ (pySplitNl_ne_nil cs), ih, hc]
      rfl
    · rw [if_neg hc]
      cases hsp : pySplitNl cs with
      | nil => exact absurd hsp (pySplitNl_ne_nil cs)
      | cons x xs =>
        rw [hsp] at ih
        cases xs with
        | nil =>
          have hx : rejoin [x] = x := rfl
          rw [hx] at ih
          show rejoin [c :: x] = c :: cs
          rw [show rejoin [c :: x] = c :: x from rfl, ih]
        | cons y ys =>
          rw [rejoin_cons_of_ne_nil x (y :: ys) (by simp)] at ih
          rw [rejoin_cons_of_ne_nil (c :: x) (y :: ys) (by simp)]
          rw [List.cons_append, ih]

theorem rejoin_ne_nil (ps : List (List Char)) (hps : ps ≠ [])
    (h : ∀ l ∈ ps, l ≠ []) : rejoin ps ≠ [] := by
  cases ps with
  | nil => exact absurd rfl hps
  | cons c rest =>
    cases rest with
    | nil => simpa using h c (by simp)
    | cons y ys =>
      rw [rejoin_cons_of_ne_nil _ _ (by simp)]
      have := h c (by simp)
      simp [this]

theorem rejoin_append (ps qs : List (List Char)) (hps : ps ≠ [])
    (hqs : qs ≠ []) : rejoin (ps ++ qs) = rejoin ps ++ '\n' :: rejoin qs := by
  induction ps with
  | nil => exact absurd rfl hps
  | cons c rest ih =>
    cases rest with
    | nil =>
      simp only [List.singleton_append]
      rw [rejoin_cons_of_ne_nil c qs hqs]
      rfl
    | cons y ys =>
      rw [List.cons_append, rejoin_cons_of_ne_nil c ((y :: ys) ++ qs) (by simp),
          rejoin_cons_of_ne_nil c (y :: ys) (by simp), ih (by simp)]
      simp

theorem rejoin_append_singleton (ps : List (List Char)) (l : List Char)
    (hps : ps ≠ []) : rejoin (ps ++ [l]) = rejoin ps ++ '\n' :: l := by
  rw [rejoin_append ps [l] hps (by simp)]
  rfl

theorem pyStrip_length_le (l : List Char) : (pyStrip l).length ≤ l.length :=
  calc (pyStrip l).length
      = ((l.dropWhile isSpace).reverse.dropWhile isSpace).length := by
        simp [pyStrip]
    _ ≤ (l.dropWhile isSpace).reverse.length :=
        (List.dropWhile_sublist isSpace).length_le
    _ = (l.dropWhile isSpace).length := by simp
    _ ≤ l.length := (List.dropWhile_sublist isSpace).length_le

theorem pyStrip_append_space (xs : List Char) (c : Char)
    (hc : isSpace c = true) : pyStrip (xs ++ [c]) = pyStrip xs := by
  unfold pyStrip
  rw [List.dropWhile_append]
  by_cases h : (xs.dropWhile isSpace).isEmpty
  · rw [if_pos h]
    simp only [List.dropWhile_cons, hc, if_true, List.dropWhile_nil,
      List.reverse_nil, List.dropWhile_nil]
    rw [List.isEmpty_iff] at h
    rw [h]
    simp
  · rw [if_neg h]
    rw [List.reverse_append]
    simp only [List.reverse_cons, List.reverse_nil, List.nil_append,
      List.singleton_append, List.dropWhile_cons, hc, if_true]

theorem exists_append_singleton_of_getLast? (l : List Char) (a : Char)
    (h : l.getLast? = some a) : ∃ ys, l = ys ++ [a] := by
  induction l with
  | nil => simp at h
  | cons c cs ih =>
    cases cs with
    | nil =>
      simp only [List.getLast?_singleton, Option.some.injEq] at h
      exact ⟨[], by simp [h]⟩
    | cons y ys =>
      rw [List.getLast?_cons_cons] at h
      obtain ⟨zs, hzs⟩ := ih h
      exact ⟨c :: zs, by simp [hzs]⟩

theorem hardSplitAux_congr (m : Nat) :
    ∀ (fuel₁ : Nat) (fuel₂ : Nat) (line : List Char),
      line.length ≤ fuel₁ → line.length ≤ fuel₂ →
      hardSplitAux m fuel₁ line = hardSplitAux m fuel₂ line := by
  intro fuel₁
  induction fuel₁ with
  | zero =>
    intro fuel₂ line h1 _
    have hline : line = [] := List.length_eq_zero.mp (Nat.le_zero.mp h1)
    subst hline
    cases fuel₂ with
    | zero => rfl
    | succ n => simp [hardSplitAux]
  | succ f ih =>
    intro fuel₂ line h1 h2
    cases fuel₂ with
    | zero =>
      have hline : line = [] := List.length_eq_zero.mp (Nat.le_zero.mp h2)
      subst hline
      simp [hardSplitAux]
    | succ g =>
      simp only [hardSplitAux]
      by_cases hg : m = 0 ∨ line.length ≤ m
      · rw [if_pos hg, if_pos hg]
      · rw [if_neg hg, if_neg hg]
        push_neg at hg
        have hdrop : (line.drop m).length = line.length - m := by simp
        have hf : (line.drop m).length ≤ f := by omega
        have hg2 : (line.drop m).length ≤ g := by omega
        rw [ih g (line.drop m) hf hg2]

theorem hardSplit_eq (m : Nat) (line : List Char) :
    hardSplit m line =
      if m = 0 ∨ line.length ≤ m then ([], line)
      else (line.take m :: (hardSplit m (line.drop m)).1,
            (hardSplit m (line.drop m)).2) := by
  cases line with
  | nil =>
    rw [if_pos (Or.inr (by simp))]
    rfl
  | cons c cs =>
    show hardSplitAux m (cs.length + 1) (c :: cs) = _
    simp only [hardSplitAux]
    by_cases hg : m = 0 ∨ (c :: cs).length ≤ m
    · rw [if_pos hg, if_pos hg]
    · rw [if_neg hg, if_neg hg]
      push_neg at hg
      have hle : ((c :: cs).drop m).length ≤ cs.length := by
        simp only [List.length_drop, List.length_cons]
        omega
      show (_ :: (hardSplitAux m cs.length ((c :: cs).drop m)).1,
            (hardSplitAux m cs.length ((c :: cs).drop m)).2) = _
      rw [hardSplitAux_congr m cs.length ((c :: cs).drop m).length
            ((c :: cs).drop m) hle le_rfl]
      rfl

theorem hardSplit_of_le (m : Nat) (line : List Char)
    (h : line.length ≤ m) : hardSplit m line = ([], line) := by
  rw [hardSplit_eq, if_pos (Or.inr h)]

theorem hardSplit_pieces_le (m : Nat) :
    ∀ (fuel : Nat) (line : List Char) (p : List Char),
      p ∈ (hardSplitAux m fuel line).1 → p.length ≤ m := by
  intro fuel
  induction fuel with
  | zero => intro line p hp; simp [hardSplitAux] at hp
  | succ f ih =>
    intro line p hp
    simp only [hardSplitAux] at hp
    by_cases hg : m = 0 ∨ line.length ≤ m
    · rw [if_pos hg] at hp
      simp at hp
    · rw [if_neg hg] at hp
      simp only [List.mem_cons] at hp
      rcases hp with rfl | hp
      · simp only [List.length_take]
        omega
      · exact ih (line.drop m) p hp

theorem hardSplit_rest_le (m : Nat) (hm : 1 ≤ m) :
    ∀ (fuel : Nat) (line : List Char), line.length ≤ fuel →
      (hardSplitAux m fuel line).2.length ≤ m := by
  intro fuel
  induction fuel with
  | zero =>
    intro line h
    have hline : line = [] := List.length_eq_zero.mp (Nat.le_zero.mp h)
    subst hline
    simp [hardSplitAux]
  | succ f ih =>
    intro line h
    simp only [hardSplitAux]
    by_cases hg : m = 0 ∨ line.length ≤ m
    · rw [if_pos hg]
      rcases hg with hg | hg
      · omega
      · exact hg
    · rw [if_neg hg]
      push_neg at hg
      refine ih (line.drop m) ?_
      simp only [List.length_drop]
      omega

theorem splitLoop_ne_nil (m : Nat) :
    ∀ (lines : List (List Char)) (cc : List Char), cc ≠ [] →
      splitLoop m lines cc ≠ [] := by
  intro lines
  induction lines with
  | nil => intro cc hcc; simp [splitLoop, hcc]
  | cons line rest ih =>
    intro cc hcc
    simp only [splitLoop]
    by_cases hcond : cc.length + line.length + 1 > m
    · rw [if_pos hcond, if_pos hcc]
      simp
    · rw [if_neg hcond]
      exact ih (cc ++ line ++ ['\n']) (by simp)

theorem pyStrip_le_of_last_newline (cc : List Char) (hcc : cc ≠ [])
    (hlast : cc.getLast? = some '\n') :
    (pyStrip cc).length + 1 ≤ cc.length := by
  obtain ⟨ys, rfl⟩ := exists_append_singleton_of_getLast? cc '\n' hlast
  rw [pyStrip_append_space ys '\n' (by decide)]
  have := pyStrip_length_le ys
  simp only [List.length_append, List.length_cons, List.length_nil]
  omega

theorem splitLoop_chunk_le (m : Nat) (hm : 1 ≤ m) :
    ∀ (lines : List (List Char)) (cc : List Char),
      cc = [] ∨ (cc.getLast? = some '\n' ∧ cc.length ≤ m + 1) →
      ∀ ch ∈ splitLoop m lines cc, ch.length ≤ m := by
  intro lines
  induction lines with
  | nil =>
    intro cc hinv ch hch
    simp only [splitLoop] at hch
    by_cases hcc : cc = []
    · rw [if_neg (by simp [hcc])] at hch
      simp at hch
    · rw [if_pos hcc] at hch
      simp only [List.mem_singleton] at hch
      subst hch
      rcases hinv with h | ⟨hlast, hlen⟩
      · exact absurd h hcc
      · have := pyStrip_le_of_last_newline cc hcc hlast
        omega
  | cons line rest ih =>
    intro cc hinv ch hch
    simp only [splitLoop] at hch
    by_cases hcond : cc.length + line.length + 1 > m
    · rw [if_pos hcond] at hch
      simp only [List.mem_append] at hch
      rcases hch with (hch | hch) | hch
      · by_cases hcc : cc = []
        · rw [if_neg (by simp [hcc])] at hch
          simp at hch
        · rw [if_pos hcc] at hch
          simp only [List.mem_singleton] at hch
          subst hch
          rcases hinv with h | ⟨hlast, hlen⟩
          · exact absurd h hcc
          · have := pyStrip_le_of_last_newline cc hcc hlast
            omega
      · exact hardSplit_pieces_le m line.length line ch hch
      · refine ih ((hardSplit m line).2 ++ ['\n']) (Or.inr ⟨?_, ?_⟩) ch hch
        · simp
        · have hrest : (hardSplit m line).2.length ≤ m :=
            hardSplit_rest_le m hm line.length line le_rfl
          simp only [List.length_append, List.length_cons, List.length_nil]
          omega
    · rw [if_neg hcond] at hch
      refine ih (cc ++ line ++ ['\n']) (Or.inr ⟨?_, ?_⟩) ch hch
      · simp
      · simp only [List.length_append, List.length_cons, List.length_nil]
        omega

theorem pyStrip_eq_self (l : List Char) (a b : Char)
    (hh : l.head? = some a) (ha : isSpace a = false)
    (hl : l.getLast? = some b) (hb : isSpace b = false) : pyStrip l = l := by
  obtain ⟨ys, rfl⟩ := exists_append_singleton_of_getLast? l b hl
  unfold pyStrip
  have hdw : (ys ++ [b]).dropWhile isSpace = ys ++ [b] := by
    cases ys with
    | nil => simp [List.dropWhile_cons, hb]
    | cons c cs =>
      simp only [List.head?_cons, Option.some.injEq, List.cons_append] at hh ⊢
      rw [List.dropWhile_cons, hh, ha]
      simp
  rw [hdw, List.reverse_append]
  simp only [List.reverse_cons, List.reverse_nil, List.nil_append,
    List.singleton_append, List.dropWhile_cons, hb]
  simp

theorem pyStrip_length_le_dropWhile (l : List Char) :
    (pyStrip l).length ≤ (l.dropWhile isSpace).length := by
  unfold pyStrip
  calc ((l.dropWhile isSpace).reverse.dropWhile isSpace).reverse.length
      = ((l.dropWhile isSpace).reverse.dropWhile isSpace).length := by simp
    _ ≤ (l.dropWhile isSpace).reverse.length :=
        (List.dropWhile_sublist isSpace).length_le
    _ = (l.dropWhile isSpace).length := by simp

theorem pyStrip_head_not_space (l : List Char) (hl : l ≠ [])
    (h : pyStrip l = l) : ∃ a, l.head? = some a ∧ isSpace a = false := by
  cases l with
  | nil => exact absurd rfl hl
  | cons a t =>
    refine ⟨a, rfl, ?_⟩
    by_contra hws
    rw [Bool.not_eq_false] at hws
    have h1 : (pyStrip (a :: t)).length ≤ t.length := by
      have h2 := pyStrip_length_le_dropWhile (a :: t)
      rw [List.dropWhile_cons, if_pos hws] at h2
      exact h2.trans ((List.dropWhile_sublist isSpace).length_le)
    rw [h] at h1
    simp at h1

theorem pyStrip_last_not_space (l : List Char) (hl : l ≠ [])
    (h : pyStrip l = l) : ∃ b, l.getLast? = some b ∧ isSpace b = false := by
  refine ⟨l.getLast hl, List.getLast?_eq_getLast l hl, ?_⟩
  by_contra hws
  rw [Bool.not_eq_false] at hws
  obtain ⟨ys, hys⟩ := exists_append_singleton_of_getLast? l (l.getLast hl)
    (List.getLast?_eq_getLast l hl)
  have h1 : (pyStrip l).length ≤ ys.length := by
    rw [hys, pyStrip_append_space ys _ hws]
    exact pyStrip_length_le ys
  rw [h, hys] at h1
  simp at h1

theorem rejoin_head?_mem (ps : List (List Char)) (hps : ps ≠ [])
    (h : ∀ l ∈ ps, l ≠ []) :
    ∃ a l, l ∈ ps ∧ l.head? = some a ∧ (rejoin ps).head? = some a := by
  cases ps with
  | nil => exact absurd rfl hps
  | cons c rest =>
    have hc := h c (by simp)
    cases c with
    | nil => exact absurd rfl hc
    | cons a t =>
      cases rest with
      | nil => exact ⟨a, a :: t, by simp, rfl, rfl⟩
      | cons y ys =>
        refine ⟨a, a :: t, by simp, rfl, ?_⟩
        rw [rejoin_cons_of_ne_nil (a :: t) (y :: ys) (by simp)]
        rfl

theorem rejoin_getLast?_mem (ps : List (List Char)) (hps : ps ≠ [])
    (h : ∀ l ∈ ps, l ≠ []) :
    ∃ b l, l ∈ ps ∧ l.getLast? = some b ∧ (rejoin ps).getLast? = some b := by
  induction ps with
  | nil => exact absurd rfl hps
  | cons c rest ih =>
    cases rest with
    | nil =>
      have hc := h c (by simp)
      exact ⟨c.getLast hc, c, by simp, List.getLast?_eq_getLast c hc,
        List.getLast?_eq_getLast c hc⟩
    | cons y ys =>
      obtain ⟨b, l, hmem, hbl, hbr⟩ := ih (by simp)
        (fun l hl => h l (List.mem_cons_of_mem c hl))
      refine ⟨b, l, List.mem_cons_of_mem c hmem, hbl, ?_⟩
      rw [rejoin_cons_of_ne_nil c (y :: ys) (by simp)]
      have hR : rejoin (y :: ys) ≠ [] := rejoin_ne_nil (y :: ys) (by simp)
        (fun l hl => h l (List.mem_cons_of_mem c hl))
      rw [show (c ++ '\n' :: rejoin (y :: ys)) =
            c ++ (['\n'] ++ rejoin (y :: ys)) from by simp,
          List.getLast?_append, List.getLast?_append, hbr]
      rfl

/-- Stripping undoes nothing on a pending chunk whose accumulated lines are all
nonempty and already stripped: `(rejoin ps ++ "\n").strip() = rejoin ps`. -/
theorem pyStrip_rejoin_newline (ps : List (List Char)) (hps : ps ≠ [])
    (h : ∀ l ∈ ps, l ≠ [] ∧ pyStrip l = l) :
    pyStrip (rejoin ps ++ ['\n']) = rejoin ps := by
  have hne : ∀ l ∈ ps, l ≠ [] := fun l hl => (h l hl).1
  rw [pyStrip_append_space _ '\n' (by decide)]
  obtain ⟨a, la, hla, hhla, hha⟩ := rejoin_head?_mem ps hps hne
  obtain ⟨b, lb, hlb, hblb, hbb⟩ := rejoin_getLast?_mem ps hps hne
  obtain ⟨a', hha', hwa⟩ :=
    pyStrip_head_not_space la (hne la hla) (h la hla).2
  obtain ⟨b', hbb', hwb⟩ :=
    pyStrip_last_not_space lb (hne lb hlb) (h lb hlb).2
  rw [hhla] at hha'
  rw [hblb] at hbb'
  obtain rfl : a = a' := by injection hha'
  obtain rfl : b = b' := by injection hbb'
  exact pyStrip_eq_self (rejoin ps) a b hha hwa hbb hwb

/-- The reconstruction invariant of the splitting loop: as long as every line
(pending and future) is nonempty, already stripped, and no longer than `m`,
the chunks produced by `splitLoop` rejoin to the pending lines followed by the
remaining lines. -/
theorem rejoin_splitLoop (m : Nat) :
    ∀ (lines ps : List (List Char)),
      (∀ l ∈ ps ++ lines, l ≠ [] ∧ pyStrip l = l ∧ l.length ≤ m) →
      rejoin (splitLoop m lines (pendingChunk ps)) = rejoin (ps ++ lines) := by
  intro lines
  induction lines with
  | nil =>
    intro ps h
    by_cases hps : ps = []
    · subst hps
      simp [splitLoop, pendingChunk]
    · rw [show splitLoop m [] (pendingChunk ps) =
            if pendingChunk ps ≠ [] then [pyStrip (pendingChunk ps)] else []
          from rfl]
      have hpc : pendingChunk ps = rejoin ps ++ ['\n'] := by
        rw [pendingChunk, if_neg hps]
      rw [hpc, if_pos (by simp)]
      rw [pyStrip_rejoin_newline ps hps
        (fun l hl => ⟨(h l (by simpa using hl)).1, (h l (by simpa using hl)).2.1⟩)]
      show rejoin [rejoin ps] = rejoin (ps ++ [])
      rw [List.append_nil]
      rfl
  | cons line rest ih =>
    intro ps h
    have hline := h line (by simp)
    have hlen : line.length ≤ m := hline.2.2
    have hlineP : ∀ l ∈ [line] ++ rest, l ≠ [] ∧ pyStrip l = l ∧ l.length ≤ m := by
      intro l hl
      rw [List.singleton_append] at hl
      exact h l (List.mem_append_right ps hl)
    have hcc2 : pendingChunk [line] = line ++ ['\n'] := by
      rw [pendingChunk, if_neg (by simp)]
      rfl
    show rejoin (splitLoop m (line :: rest) (pendingChunk ps)) = _
    simp only [splitLoop]
    have hcc1 : pendingChunk ps ++ line ++ ['\n'] = pendingChunk (ps ++ [line]) := by
      by_cases hps : ps = []
      · subst hps
        rw [show pendingChunk ([] : List (List Char)) = [] from rfl,
            List.nil_append,
            show ([] : List (List Char)) ++ [line] = [line] from rfl, hcc2]
      · rw [pendingChunk, if_neg hps, pendingChunk, if_neg (by simp),
            rejoin_append_singleton ps line hps]
        simp
    by_cases hcond : (pendingChunk ps).length + line.length + 1 > m
    · rw [if_pos hcond]
      have hh1 : (hardSplit m line).1 = [] := by rw [hardSplit_of_le m line hlen]
      have hh2 : (hardSplit m line).2 = line := by rw [hardSplit_of_le m line hlen]
      rw [hh1, hh2, show line ++ ['\n'] = pendingChunk [line] from hcc2.symm]
      have hrec := ih [line] hlineP
      by_cases hps : ps = []
      · subst hps
        rw [show pendingChunk ([] : List (List Char)) = [] from rfl]
        rw [if_neg (by simp)]
        rw [List.nil_append, List.nil_append, hrec, List.singleton_append]
        rfl
      · have hpc : pendingChunk ps = rejoin ps ++ ['\n'] := by
          rw [pendingChunk, if_neg hps]
        rw [hpc, if_pos (by simp), ← hpc]
        rw [show pendingChunk ps = rejoin ps ++ ['\n'] from hpc]
        rw [pyStrip_rejoin_newline ps hps
          (fun l hl => ⟨(h l (by simp [hl])).1, (h l (by simp [hl])).2.1⟩)]
        have hsl : splitLoop m rest (pendingChunk [line]) ≠ [] := by
          refine splitLoop_ne_nil m rest _ ?_
          rw [hcc2]
          simp
        show rejoin (rejoin ps :: splitLoop m rest (pendingChunk [line])) = _
        rw [rejoin_cons_of_ne_nil (rejoin ps) _ hsl, hrec,
            List.singleton_append,
            rejoin_append ps (line :: rest) hps (by simp)]
    · rw [if_neg hcond, hcc1]
      have hrec := ih (ps ++ [line]) (by
        intro l hl
        refine h l ?_
        simp only [List.append_assoc, List.singleton_append] at hl
        exact hl)
      rw [hrec]
      simp

theorem pySplitNl_append_cons (xs ys : List Char) (h : '\n' ∉ xs) :
    pySplitNl (xs ++ '\n' :: ys) = xs :: pySplitNl ys := by
  induction xs with
  | nil =>
    simp [pySplitNl]
  | cons c cs ih =>
    have hc : c ≠ '\n' := fun hcn => h (by simp [hcn])
    have ihh := ih (fun hm => h (List.mem_cons_of_mem c hm))
    simp only [List.cons_append, pySplitNl, if_neg hc]
    rw [show cs.append ('\n' :: ys) = cs ++ '\n' :: ys from rfl, ihh]

theorem pySplitNl_no_newline (xs : List Char) (h : '\n' ∉ xs) :
    pySplitNl xs = [xs] := by
  induction xs with
  | nil => rfl
  | cons c cs ih =>
    have hc : c ≠ '\n' := fun hcn => h (by simp [hcn])
    have ihh := ih (fun hm => h (List.mem_cons_of_mem c hm))
    simp only [pySplitNl, if_neg hc, ihh]

theorem pyStrip_replicate (n : Nat) (c : Char) (hn : n ≠ 0)
    (hc : isSpace c = false) :
    pyStrip (List.replicate n c) = List.replicate n c := by
  cases n with
  | zero => exact absurd rfl hn
  | succ k =>
    refine pyStrip_eq_self _ c c ?_ hc ?_ hc
    · rw [List.replicate_succ]
      rfl
    · rw [List.replicate_succ']
      exact List.getLast?_concat _

/-- When every line is exactly `m` characters (nonempty, stripped), the
splitting loop emits each line as its own chunk; `prev` is the line sitting in
`current_chunk`. -/
theorem splitLoop_full_lines (m : Nat) :
    ∀ (lines : List (List Char)),
      (∀ l ∈ lines, l.length = m ∧ pyStrip l = l ∧ l ≠ []) →
      ∀ prev : List Char, prev.length = m → pyStrip prev = prev → prev ≠ [] →
      splitLoop m lines (prev ++ ['\n']) = prev :: lines := by
  intro lines
  induction lines with
  | nil =>
    intro _ prev hlen hstrip hne
    show (if prev ++ ['\n'] ≠ [] then [pyStrip (prev ++ ['\n'])] else []) = _
    rw [if_pos (by simp)]
    rw [show pyStrip (prev ++ ['\n']) = pyStrip (rejoin [prev] ++ ['\n']) from rfl]
    rw [pyStrip_rejoin_newline [prev] (by simp)
      (by intro l hl; simp only [List.mem_singleton] at hl; subst hl; exact ⟨hne, hstrip⟩)]
    rfl
  | cons line rest ih =>
    intro h prev hlen hstrip hne
    have hline := h line (by simp)
    simp only [splitLoop]
    rw [if_pos (by
      simp only [List.length_append, List.length_cons, List.length_nil, hlen]
      omega)]
    rw [if_pos (by simp)]
    have hh1 : (hardSplit m line).1 = [] := by
      rw [hardSplit_of_le m line (le_of_eq hline.1)]
    have hh2 : (hardSplit m line).2 = line := by
      rw [hardSplit_of_le m line (le_of_eq hline.1)]
    rw [hh1, hh2]
    rw [show pyStrip (prev ++ ['\n']) = pyStrip (rejoin [prev] ++ ['\n']) from rfl]
    rw [pyStrip_rejoin_newline [prev] (by simp)
      (by intro l hl; simp only [List.mem_singleton] at hl; subst hl; exact ⟨hne, hstrip⟩)]
    rw [ih (fun l hl => h l (List.mem_cons_of_mem line hl)) line
      hline.1 hline.2.1 hline.2.2]
    rfl

/-- When every line is exactly `m` characters (nonempty, stripped), the
chunks are exactly the lines. -/
theorem splitLoop_full_lines_top (m : Nat) (lines : List (List Char))
    (h : ∀ l ∈ lines, l.length = m ∧ pyStrip l = l ∧ l ≠ []) :
    splitLoop m lines [] = lines := by
  cases lines with
  | nil => rfl
  | cons line rest =>
    have hline := h line (by simp)
    simp only [splitLoop]
    rw [if_pos (by
      simp only [List.length_nil, List.length_cons, hline.1]
      omega)]
    rw [if_neg (by simp)]
    have hh1 : (hardSplit m line).1 = [] := by
      rw [hardSplit_of_le m line (le_of_eq hline.1)]
    have hh2 : (hardSplit m line).2 = line := by
      rw [hardSplit_of_le m line (le_of_eq hline.1)]
    rw [hh1, hh2]
    rw [show ([] : List (List Char)) ++ [] ++
          splitLoop m rest (line ++ ['\n']) =
        splitLoop m rest (line ++ ['\n']) from by simp]
    rw [splitLoop_full_lines m rest
      (fun l hl => h l (List.mem_cons_of_mem line hl)) line
      hline.1 hline.2.1 hline.2.2]

/-! ## Claim C1 -/

/-- C1, counterexample: the claim "concatenating all chunks with the line
separators re-inserted reconstructs the original text exactly (losslessly)"
fails: `split_message` strips each accumulated chunk, so
`split("ab ", 100) = ["ab"]` loses the trailing space. -/
theorem split_message_lossless_counterexample :
    rejoin (split_message ("ab ".toList) 100) ≠ "ab ".toList := by decide

/-- C1 (amended): for every text and `maxChunkLength ≥ 1` every chunk produced
by `split_message` has length ≤ `maxChunkLength`; rejoining the chunks with the
line separators re-inserted reconstructs the text exactly whenever every line
of the text is nonempty, free of leading/trailing whitespace, and no longer
than `maxChunkLength` (in general reconstruction is lossy because chunks are
whitespace-stripped). -/
theorem split_message_chunks_bounded_and_conditionally_lossless
    (text : List Char) (m : Nat) (hm : 1 ≤ m) :
    (∀ ch ∈ split_message text m, ch.length ≤ m) ∧
    ((∀ l ∈ pySplitNl text, l ≠ [] ∧ pyStrip l = l ∧ l.length ≤ m) →
      rejoin (split_message text m) = text) := by
  constructor
  · exact splitLoop_chunk_le m hm (pySplitNl text) [] (Or.inl rfl)
  · intro h
    have hr := rejoin_splitLoop m (pySplitNl text) [] (by simpa using h)
    rw [show pendingChunk ([] : List (List Char)) = [] from rfl] at hr
    rw [List.nil_append] at hr
    rw [rejoin_pySplitNl] at hr
    exact hr

/-- C1, witness: the amended theorem applied to the spec's Scenario 2 input
(`"a"*50 + "\n" + "b"*50`, `maxChunkLength = 60`), with the lossless
conjunct's line condition discharged as well, so the reconstruction of the
input is obtained. -/
theorem split_message_chunks_bounded_witness :
    1 ≤ 60 ∧
    (∀ l ∈ pySplitNl (List.replicate 50 'a' ++ '\n' :: List.replicate 50 'b'),
        l ≠ [] ∧ pyStrip l = l ∧ l.length ≤ 60) ∧
    ((∀ ch ∈ split_message
        (List.replicate 50 'a' ++ '\n' :: List.replicate 50 'b') 60,
        ch.length ≤ 60) ∧
      ((∀ l ∈ pySplitNl (List.replicate 50 'a' ++ '\n' :: List.replicate 50 'b'),
          l ≠ [] ∧ pyStrip l = l ∧ l.length ≤ 60) →
        rejoin (split_message
          (List.replicate 50 'a' ++ '\n' :: List.replicate 50 'b') 60) =
          List.replicate 50 'a' ++ '\n' :: List.replicate 50 'b')) ∧
    rejoin (split_message
        (List.replicate 50 'a' ++ '\n' :: List.replicate 50 'b') 60) =
      List.replicate 50 'a' ++ '\n' :: List.replicate 50 'b' :=
  ⟨by decide, by decide,
   split_message_chunks_bounded_and_conditionally_lossless
     (List.replicate 50 'a' ++ '\n' :: List.replicate 50 'b') 60 (by decide),
   (split_message_chunks_bounded_and_conditionally_lossless
      (List.replicate 50 'a' ++ '\n' :: List.replicate 50 'b') 60
      (by decide)).2 (by decide)⟩

/-! ## Claim C10 -/

/-- C10: for the empty-string input and every `maxChunkLength ≥ 1`,
`split_message` returns exactly one chunk, the empty string (not an empty
list). -/
theorem split_message_empty (m : Nat) (hm : 1 ≤ m) :
    split_message [] m = [[]] := by
  unfold split_message
  rw [show pySplitNl [] = [[]] from rfl]
  simp only [splitLoop]
  rw [if_neg (by simp only [List.length_nil]; omega)]
  rw [show ([] : List Char) ++ [] ++ ['\n'] = ['\n'] from rfl]
  rw [if_pos (by simp)]
  rw [show pyStrip ['\n'] = [] from rfl]

/-- C10, witness: the theorem applied at `maxChunkLength = 3`. -/
theorem split_message_empty_witness :
    1 ≤ 3 ∧ split_message [] 3 = [[]] :=
  ⟨by decide, split_message_empty 3 (by decide)⟩

/-! ## Claim C8 -/

/-- C8, counterexample: for the oversized text `"x"*3000 + "\n" + "a"*3000 +
"\n" + "a"*3000` the chunks are `["x"*3000, "a"*3000, "a"*3000]`, and the
second chunk — which is not the last — is posted with no in-progress suffix,
because the code tests `chunk != chunks[-1]` by value and the middle chunk
equals the final one.  This falsifies "every chunk except the very last one
carries the in-progress suffix". -/
theorem send_long_message_suffix_counterexample :
    send_long_message_in_chunks
        (List.replicate 3000 'x' ++ '\n' ::
          (List.replicate 3000 'a' ++ '\n' :: List.replicate 3000 'a'))
        loadingCharacter =
      [ChunkDelivery.update (List.replicate 3000 'x' ++ loadingCharacter),
       ChunkDelivery.post (List.replicate 3000 'a'),
       ChunkDelivery.post (List.replicate 3000 'a')] ∧
    ChunkDelivery.post (List.replicate 3000 'a') ≠
      ChunkDelivery.post (List.replicate 3000 'a' ++ loadingCharacter) := by
  constructor
  · have hrepl_ne : ∀ c : Char, List.replicate 3000 c ≠ [] := by
      intro c hc
      have h0 := congrArg List.length hc
      rw [List.length_replicate, List.length_nil] at h0
      exact absurd h0 (by decide)
    have hX : '\n' ∉ List.replicate 3000 'x' := by
      intro hc
      rw [List.mem_replicate] at hc
      exact absurd hc.2 (by decide)
    have hA : '\n' ∉ List.replicate 3000 'a' := by
      intro hc
      rw [List.mem_replicate] at hc
      exact absurd hc.2 (by decide)
    have hchunks : split_message
        (List.replicate 3000 'x' ++ '\n' ::
          (List.replicate 3000 'a' ++ '\n' :: List.replicate 3000 'a')) 3000 =
        [List.replicate 3000 'x', List.replicate 3000 'a',
         List.replicate 3000 'a'] := by
      unfold split_message
      rw [pySplitNl_append_cons _ _ hX, pySplitNl_append_cons _ _ hA,
          pySplitNl_no_newline _ hA]
      refine splitLoop_full_lines_top 3000 _ ?_
      intro l hl
      simp only [List.mem_cons, List.mem_singleton, List.not_mem_nil,
        or_false] at hl
      rcases hl with rfl | rfl | rfl
      · exact ⟨List.length_replicate 3000 'x',
          pyStrip_replicate 3000 'x' (by decide) (by decide), hrepl_ne 'x'⟩
      · exact ⟨List.length_replicate 3000 'a',
          pyStrip_replicate 3000 'a' (by decide) (by decide), hrepl_ne 'a'⟩
      · exact ⟨List.length_replicate 3000 'a',
          pyStrip_replicate 3000 'a' (by decide) (by decide), hrepl_ne 'a'⟩
    show deliverChunks loadingCharacter (split_message _ MAX_CHUNK_LENGTH) = _
    rw [show MAX_CHUNK_LENGTH = 3000 from rfl, hchunks]
    simp only [deliverChunks, List.map_cons, List.map_nil]
    rw [show (List.replicate 3000 'x' ::
          [List.replicate 3000 'a', List.replicate 3000 'a']).getLastD [] =
        List.replicate 3000 'a' from rfl]
    rw [if_pos rfl, List.append_nil]
  · intro h
    injection h with h'
    have hlen := congrArg List.length h'
    rw [List.length_append] at hlen
    have hld : loadingCharacter.length = 19 := by decide
    omega

/-- Generic shape of the chunk-delivery loop: the first chunk updates the
in-progress message (always with the suffix), later chunks are posted in
order, and a later chunk carries the suffix exactly when its text differs from
the final chunk's text. -/
theorem deliverChunks_shape (loading : List Char)
    (chunks : List (List Char)) :
    (deliverChunks loading chunks).length = chunks.length ∧
    ∀ (i : Nat) (ch : List Char), chunks[i]? = some ch →
      (deliverChunks loading chunks)[i]? =
        some (if i = 0 then ChunkDelivery.update (ch ++ loading)
              else ChunkDelivery.post
                (ch ++ if ch = chunks.getLastD [] then [] else loading)) := by
  cases chunks with
  | nil =>
    refine ⟨rfl, ?_⟩
    intro i ch h
    simp at h
  | cons c rest =>
    constructor
    · simp [deliverChunks]
    · intro i ch h
      cases i with
      | zero =>
        rw [List.getElem?_cons_zero] at h
        obtain rfl : c = ch := by injection h
        rw [show deliverChunks loading (c :: rest) =
              ChunkDelivery.update (c ++ loading) ::
                rest.map (fun x =>
                  ChunkDelivery.post
                    (x ++ (if x = (c :: rest).getLastD [] then []
                           else loading))) from rfl]
        rw [List.getElem?_cons_zero, if_pos rfl]
      | succ j =>
        rw [List.getElem?_cons_succ] at h
        rw [show deliverChunks loading (c :: rest) =
              ChunkDelivery.update (c ++ loading) ::
                rest.map (fun x =>
                  ChunkDelivery.post
                    (x ++ (if x = (c :: rest).getLastD [] then []
                           else loading))) from rfl]
        rw [List.getElem?_cons_succ, List.getElem?_map, h]
        rw [if_neg (Nat.succ_ne_zero j)]
        rfl

/-- C8 (amended): the first chunk replaces (updates) the in-progress message
and always carries the in-progress suffix (even when it is also the last
chunk); every subsequent chunk is posted as an ordered follow-up reply
anchored to it; a subsequent chunk carries the in-progress suffix if and only
if its text differs from the final chunk's text (so the last chunk never
does, but an earlier chunk equal by value to the last one also loses the
suffix). -/
theorem send_long_message_delivery_shape (text loading : List Char) :
    (send_long_message_in_chunks text loading).length =
      (split_message text MAX_CHUNK_LENGTH).length ∧
    ∀ (i : Nat) (ch : List Char),
      (split_message text MAX_CHUNK_LENGTH)[i]? = some ch →
      (send_long_message_in_chunks text loading)[i]? =
        some (if i = 0 then ChunkDelivery.update (ch ++ loading)
              else ChunkDelivery.post
                (ch ++ if ch = (split_message text MAX_CHUNK_LENGTH).getLastD []
                       then [] else loading)) :=
  deliverChunks_shape loading (split_message text MAX_CHUNK_LENGTH)

/-- C8, witness: the amended theorem applied to a small single-chunk text. -/
theorem send_long_message_delivery_shape_witness :
    (split_message ("hi".toList) MAX_CHUNK_LENGTH)[0]? = some ("hi".toList) ∧
    (send_long_message_in_chunks ("hi".toList) ['L'])[0]? =
      some (if 0 = 0 then ChunkDelivery.update ("hi".toList ++ ['L'])
            else ChunkDelivery.post ("hi".toList ++
              if "hi".toList =
                  (split_message ("hi".toList) MAX_CHUNK_LENGTH).getLastD []
              then [] else ['L'])) :=
  ⟨by decide,
   (send_long_message_delivery_shape ("hi".toList) ['L']).2 0 ("hi".toList)
     (by decide)⟩

/-! ## Lemmas about the token-budget trimmer -/

/-- Unfolding of `messages_within_context_window` with its local bindings
inlined. -/
theorem mwcw_unfold (c : Msg → Nat) (budget : Int) (msgs : List Msg) :
    messages_within_context_window c budget msgs =
      ((match msgs.find? (fun m => m.role == Role.system) with
        | some s => [s]
        | none => []) ++
        trimLoop c
          (match msgs.find? (fun m => m.role == Role.system) with
           | some s => c s
           | none => 0) budget
          (msgs.filter (fun m => !(m.role == Role.system))),
       count_tokens c
         ((match msgs.find? (fun m => m.role == Role.system) with
           | some s => [s]
           | none => []) ++
          trimLoop c
            (match msgs.find? (fun m => m.role == Role.system) with
             | some s => c s
             | none => 0) budget
            (msgs.filter (fun m => !(m.role == Role.system)))),
       budget) := rfl

theorem trimLoop_suffix (c : Msg → Nat) (k : Nat) (b : Int) :
    ∀ l : List Msg, trimLoop c k b l <:+ l := by
  intro l
  induction l with
  | nil => exact List.suffix_refl []
  | cons m rest ih =>
    show (if (count_tokens c (m :: rest) + k : Int) > b
          then trimLoop c k b rest else m :: rest) <:+ m :: rest
    by_cases hcond : (count_tokens c (m :: rest) + k : Int) > b
    · rw [if_pos hcond]
      exact ih.trans (List.suffix_cons m rest)
    · rw [if_neg hcond]

theorem count_tokens_cons (c : Msg → Nat) (m : Msg) (l : List Msg) :
    count_tokens c (m :: l) = c m + count_tokens c l := by
  simp [count_tokens]

theorem find?_system_of_unique (msgs : List Msg) (s : Msg) (hmem : s ∈ msgs)
    (hrole : s.role = Role.system)
    (huniq : ∀ m ∈ msgs, m.role = Role.system → m = s) :
    msgs.find? (fun m => m.role == Role.system) = some s := by
  induction msgs with
  | nil => simp at hmem
  | cons m rest ih =>
    by_cases hm : (m.role == Role.system) = true
    · simp only [List.find?, hm]
      rw [beq_iff_eq] at hm
      exact congrArg some (huniq m (List.mem_cons_self m rest) hm)
    · rw [Bool.not_eq_true] at hm
      simp only [List.find?, hm]
      rw [Bool.eq_false_iff] at hm
      have hms : s ≠ m := by
        intro hsm
        subst hsm
        exact hm (by rw [beq_iff_eq]; exact hrole)
      refine ih ?_ ?_
      · rcases List.mem_cons.mp hmem with h | h
        · exact absurd h hms
        · exact h
      · exact fun x hx hxr => huniq x (List.mem_cons_of_mem m hx) hxr

theorem trimmed_not_system (c : Msg → Nat) (k : Nat) (b : Int)
    (msgs : List Msg) :
    ∀ x ∈ trimLoop c k b
        (msgs.filter (fun m => !(m.role == Role.system))),
      (!(x.role == Role.system)) = true := by
  intro x hx
  have hsub := (trimLoop_suffix c k b
    (msgs.filter (fun m => !(m.role == Role.system)))).subset hx
  exact (List.mem_filter.mp hsub).2

/-- `messages_within_context_window` when a system message is found. -/
theorem mwcw_eq_some (c : Msg → Nat) (budget : Int) (msgs : List Msg)
    (s : Msg)
    (hfind : msgs.find? (fun m => m.role == Role.system) = some s) :
    messages_within_context_window c budget msgs =
      (s :: trimLoop c (c s) budget
          (msgs.filter (fun m => !(m.role == Role.system))),
       count_tokens c
         (s :: trimLoop c (c s) budget
           (msgs.filter (fun m => !(m.role == Role.system)))),
       budget) := by
  rw [mwcw_unfold, hfind]
  rfl

/-- `messages_within_context_window` when no system message exists. -/
theorem mwcw_eq_none (c : Msg → Nat) (budget : Int) (msgs : List Msg)
    (hfind : msgs.find? (fun m => m.role == Role.system) = none) :
    messages_within_context_window c budget msgs =
      (trimLoop c 0 budget
          (msgs.filter (fun m => !(m.role == Role.system))),
       count_tokens c
         (trimLoop c 0 budget
           (msgs.filter (fun m => !(m.role == Role.system)))),
       budget) := by
  rw [mwcw_unfold, hfind]
  rfl

/-! ## Claim C2 -/

/-- C2: for every message sequence containing a single system message `s` and
every token counter and budget, `trim` never removes the system message (`s`
is in the returned sequence), and each internal trimming iteration — one
execution of the `while` body on a nonempty trimmable list while over
budget — pops exactly the oldest message, so the message count strictly
decreases and the loop terminates. -/
theorem trim_keeps_system_and_iterations_decrease
    (c : Msg → Nat) (budget : Int) (msgs : List Msg) (s : Msg)
    (hmem : s ∈ msgs) (hrole : s.role = Role.system)
    (huniq : ∀ m ∈ msgs, m.role = Role.system → m = s) :
    s ∈ (messages_within_context_window c budget msgs).1 ∧
    ∀ (sysTok : Nat) (m : Msg) (rest : List Msg),
      (count_tokens c (m :: rest) + sysTok : Int) > budget →
      trimLoop c sysTok budget (m :: rest) = trimLoop c sysTok budget rest ∧
      rest.length < (m :: rest).length := by
  constructor
  · rw [mwcw_eq_some c budget msgs s
      (find?_system_of_unique msgs s hmem hrole huniq)]
    exact List.mem_cons_self s _
  · intro sysTok m rest hover
    refine ⟨?_, by simp⟩
    show (if (count_tokens c (m :: rest) + sysTok : Int) > budget
          then trimLoop c sysTok budget rest else m :: rest) = _
    rw [if_pos hover]

/-- C2, witness: a three-message window with one system message, token counter
= content length, budget 2 (the oldest user message gets trimmed). -/
theorem trim_keeps_system_witness :
    (Msg.mk Role.system [] ∈
        [Msg.mk Role.system [], Msg.mk Role.user ['a'],
         Msg.mk Role.user ['a', 'b']]) ∧
    (Msg.mk Role.system []).role = Role.system ∧
    (∀ m ∈ [Msg.mk Role.system [], Msg.mk Role.user ['a'],
            Msg.mk Role.user ['a', 'b']],
        m.role = Role.system → m = Msg.mk Role.system []) ∧
    (Msg.mk Role.system [] ∈
      (messages_within_context_window (fun m => m.content.length) 2
        [Msg.mk Role.system [], Msg.mk Role.user ['a'],
         Msg.mk Role.user ['a', 'b']]).1 ∧
     ∀ (sysTok : Nat) (m : Msg) (rest : List Msg),
      (count_tokens (fun m => m.content.length) (m :: rest) + sysTok : Int) > 2 →
      trimLoop (fun m => m.content.length) sysTok 2 (m :: rest) =
        trimLoop (fun m => m.content.length) sysTok 2 rest ∧
      rest.length < (m :: rest).length) :=
  ⟨by decide, rfl, by decide,
   trim_keeps_system_and_iterations_decrease (fun m => m.content.length) 2
     [Msg.mk Role.system [], Msg.mk Role.user ['a'],
      Msg.mk Role.user ['a', 'b']]
     (Msg.mk Role.system []) (by decide) rfl (by decide)⟩

/-! ## Claim C9 -/

/-- C9: for every input, the trimmed window starts with the first system
message of the input when one exists (even mid-sequence, and even when the
input is already under budget), and contains no other system-role message:
every other system message is silently dropped. When no system message
exists, no message of the result has the system role. -/
theorem trim_system_placement (c : Msg → Nat) (budget : Int)
    (msgs : List Msg) :
    (∀ s : Msg, msgs.find? (fun m => m.role == Role.system) = some s →
      (messages_within_context_window c budget msgs).1.head? = some s ∧
      ∀ m ∈ (messages_within_context_window c budget msgs).1.tail,
        m.role ≠ Role.system) ∧
    (msgs.find? (fun m => m.role == Role.system) = none →
      ∀ m ∈ (messages_within_context_window c budget msgs).1,
        m.role ≠ Role.system) := by
  constructor
  · intro s hfind
    rw [mwcw_eq_some c budget msgs s hfind]
    refine ⟨rfl, ?_⟩
    intro m hm
    have hm' : m ∈ trimLoop c (c s) budget
        (msgs.filter (fun x => !(x.role == Role.system))) := hm
    simpa using trimmed_not_system c (c s) budget msgs m hm'
  · intro hfind
    rw [mwcw_eq_none c budget msgs hfind]
    intro m hm
    have hm' : m ∈ trimLoop c 0 budget
        (msgs.filter (fun x => !(x.role == Role.system))) := hm
    simpa using trimmed_not_system c 0 budget msgs m hm'

/-- C9, witness: a window whose first system message sits mid-sequence and
which contains a second system message; the first is moved to the front and
the second is dropped, although the window is under budget. -/
theorem trim_system_placement_witness :
    ([Msg.mk Role.user ['u'], Msg.mk Role.system ['p'],
      Msg.mk Role.system ['q']].find? (fun m => m.role == Role.system) =
        some (Msg.mk Role.system ['p'])) ∧
    ((messages_within_context_window (fun m => m.content.length) 100
        [Msg.mk Role.user ['u'], Msg.mk Role.system ['p'],
         Msg.mk Role.system ['q']]).1.head? =
      some (Msg.mk Role.system ['p']) ∧
     ∀ m ∈ (messages_within_context_window (fun m => m.content.length) 100
        [Msg.mk Role.user ['u'], Msg.mk Role.system ['p'],
         Msg.mk Role.system ['q']]).1.tail,
        m.role ≠ Role.system) :=
  ⟨by decide,
   (trim_system_placement (fun m => m.content.length) 100
      [Msg.mk Role.user ['u'], Msg.mk Role.system ['p'],
       Msg.mk Role.system ['q']]).1
     (Msg.mk Role.system ['p']) (by decide)⟩

/-! ## Claim C3 -/

/-- C3: `trim` is idempotent — re-trimming an already-trimmed sequence whose
token count is within the available budget returns it unchanged (same
messages, same order, same reported counts). -/
theorem trim_idempotent (c : Msg → Nat) (budget : Int) (msgs : List Msg)
    (h : ((messages_within_context_window c budget msgs).2.1 : Int) ≤
      (messages_within_context_window c budget msgs).2.2) :
    messages_within_context_window c budget
        ((messages_within_context_window c budget msgs).1) =
      messages_within_context_window c budget msgs := by
  cases hfind : msgs.find? (fun m => m.role == Role.system) with
  | some s =>
    have hs := List.find?_some hfind
    have horig := mwcw_eq_some c budget msgs s hfind
    set T := trimLoop c (c s) budget
      (msgs.filter (fun m => !(m.role == Role.system))) with hT
    rw [horig] at h
    replace h : ((count_tokens c (s :: T) : Nat) : Int) ≤ budget := h
    rw [horig,
        show (s :: T, count_tokens c (s :: T), budget).1 = s :: T from rfl]
    have hmemT : ∀ x ∈ T, (!(x.role == Role.system)) = true := by
      rw [hT]
      exact trimmed_not_system c (c s) budget msgs
    have hfind2 : (s :: T).find? (fun m => m.role == Role.system) = some s := by
      simp only [List.find?, hs]
    have hfilter2 : (s :: T).filter (fun m => !(m.role == Role.system)) = T := by
      rw [List.filter_cons_of_neg (by simp [hs])]
      exact List.filter_eq_self.mpr hmemT
    have htrim2 : trimLoop c (c s) budget T = T := by
      cases hTc : T with
      | nil => rfl
      | cons mm rest =>
        show (if (count_tokens c (mm :: rest) + (c s) : Int) > budget
              then trimLoop c (c s) budget rest else mm :: rest) = mm :: rest
        rw [hTc] at h
        rw [count_tokens_cons] at h
        rw [if_neg (by push_cast at h ⊢; omega)]
    rw [mwcw_eq_some c budget (s :: T) s hfind2, hfilter2, htrim2]
  | none =>
    have horig := mwcw_eq_none c budget msgs hfind
    set T := trimLoop c 0 budget
      (msgs.filter (fun m => !(m.role == Role.system))) with hT
    rw [horig] at h
    replace h : ((count_tokens c T : Nat) : Int) ≤ budget := h
    rw [horig, show (T, count_tokens c T, budget).1 = T from rfl]
    have hmemT : ∀ x ∈ T, (!(x.role == Role.system)) = true := by
      rw [hT]
      exact trimmed_not_system c 0 budget msgs
    have hfind2 : T.find? (fun m => m.role == Role.system) = none := by
      rw [List.find?_eq_none]
      intro x hx
      simpa using hmemT x hx
    have hfilter2 : T.filter (fun m => !(m.role == Role.system)) = T :=
      List.filter_eq_self.mpr hmemT
    have htrim2 : trimLoop c 0 budget T = T := by
      cases hTc : T with
      | nil => rfl
      | cons mm rest =>
        show (if (count_tokens c (mm :: rest) + (0 : Nat) : Int) > budget
              then trimLoop c 0 budget rest else mm :: rest) = mm :: rest
        rw [hTc] at h
        rw [if_neg (by push_cast at h ⊢; omega)]
    rw [mwcw_eq_none c budget T hfind2, hfilter2, htrim2]

/-- C3, witness: re-trimming an under-budget two-message window returns it
unchanged. -/
theorem trim_idempotent_witness :
    (((messages_within_context_window (fun m => m.content.length) 10
        [Msg.mk Role.system ['s'], Msg.mk Role.user ['u']]).2.1 : Int) ≤
      (messages_within_context_window (fun m => m.content.length) 10
        [Msg.mk Role.system ['s'], Msg.mk Role.user ['u']]).2.2) ∧
    messages_within_context_window (fun m => m.content.length) 10
        ((messages_within_context_window (fun m => m.content.length) 10
          [Msg.mk Role.system ['s'], Msg.mk Role.user ['u']]).1) =
      messages_within_context_window (fun m => m.content.length) 10
        [Msg.mk Role.system ['s'], Msg.mk Role.user ['u']] :=
  ⟨by decide,
   trim_idempotent (fun m => m.content.length) 10
     [Msg.mk Role.system ['s'], Msg.mk Role.user ['u']] (by decide)⟩

/-! ## Claim C7 -/

/-- C7: whenever trimming has exhausted every removable (non-system) message
and the remaining window still exceeds the token budget, `_process_message`
takes the "too long" warning branch and never opens a completion stream for
that turn. -/
theorem too_long_never_opens_stream (c : Msg → Nat) (budget : Int)
    (msgs : List Msg)
    (hexhausted : (messages_within_context_window c budget msgs).1.filter
        (fun m => !(m.role == Role.system)) = [])
    (hover : ((messages_within_context_window c budget msgs).2.1 : Int) >
      (messages_within_context_window c budget msgs).2.2) :
    process_message_decision c budget msgs = TurnAction.tooLongNotice ∧
    ∀ final, process_message_decision c budget msgs ≠
      TurnAction.openStream final := by
  have h1 : process_message_decision c budget msgs =
      TurnAction.tooLongNotice := by
    show (if ((messages_within_context_window c budget msgs).2.1 : Int) >
            (messages_within_context_window c budget msgs).2.2
          then TurnAction.tooLongNotice
          else TurnAction.openStream
            (messages_within_context_window c budget msgs).1) = _
    rw [if_pos hover]
  refine ⟨h1, ?_⟩
  intro final hcontra
  rw [h1] at hcontra
  exact TurnAction.noConfusion hcontra

/-- C7, witness: a window whose system message alone exceeds the budget; all
removable messages are trimmed away and the notice branch is taken. -/
theorem too_long_never_opens_stream_witness :
    ((messages_within_context_window (fun m => m.content.length) 5
        [Msg.mk Role.system (List.replicate 10 's'),
         Msg.mk Role.user ['u']]).1.filter
        (fun m => !(m.role == Role.system)) = []) ∧
    (((messages_within_context_window (fun m => m.content.length) 5
        [Msg.mk Role.system (List.replicate 10 's'),
         Msg.mk Role.user ['u']]).2.1 : Int) >
      (messages_within_context_window (fun m => m.content.length) 5
        [Msg.mk Role.system (List.replicate 10 's'),
         Msg.mk Role.user ['u']]).2.2) ∧
    (process_message_decision (fun m => m.content.length) 5
        [Msg.mk Role.system (List.replicate 10 's'),
         Msg.mk Role.user ['u']] = TurnAction.tooLongNotice ∧
     ∀ final, process_message_decision (fun m => m.content.length) 5
        [Msg.mk Role.system (List.replicate 10 's'),
         Msg.mk Role.user ['u']] ≠ TurnAction.openStream final) :=
  ⟨by decide, by decide,
   too_long_never_opens_stream (fun m => m.content.length) 5
     [Msg.mk Role.system (List.replicate 10 's'), Msg.mk Role.user ['u']]
     (by decide) (by decide)⟩

/-! ## Lemmas about the stream consumer -/

theorem consumeStep_eq_none_of_late (t : Nat) (d : Delta) (st : StreamState)
    (h : t < d.time) : consumeStep t d st = none := by
  unfold consumeStep
  rw [if_pos h]

theorem consumeStep_ne_none (t : Nat) (d : Delta) (st : StreamState)
    (h : ¬t < d.time) : consumeStep t d st ≠ none := by
  obtain ⟨dt, dh, dc, df⟩ := d
  intro hnone
  unfold consumeStep at hnone
  rw [if_neg h] at hnone
  cases dh with
  | false =>
    dsimp only at hnone
    rw [if_pos (show (!false) = true from rfl)] at hnone
    exact Option.noConfusion hnone
  | true =>
    cases dc with
    | some tx =>
      dsimp only at hnone
      rw [if_neg (show ¬((!true) = true) from by simp)] at hnone
      rcases ite_eq_iff.mp hnone with ⟨-, h2⟩ | ⟨-, h2⟩ <;>
        exact Option.noConfusion h2
    | none =>
      cases df with
      | none =>
        dsimp only at hnone
        rw [if_neg (show ¬((!true) = true) from by simp)] at hnone
        exact Option.noConfusion hnone
      | some fc =>
        dsimp only at hnone
        rw [if_neg (show ¬((!true) = true) from by simp)] at hnone
        rcases ite_eq_iff.mp hnone with ⟨-, h2⟩ | ⟨-, h2⟩ <;>
          exact Option.noConfusion h2

/-- What one loop-body step does to the state: the accumulated content grows
by exactly the delta's content text, and when content has already been
accumulated the function-call buffer is untouched. -/
theorem consumeStep_spec (t : Nat) (d : Delta) (st st1 : StreamState)
    (sp : Bool) (h : consumeStep t d st = some (st1, sp)) :
    st1.content = st.content ++ deltaText d ∧
    (st.content ≠ [] → st1.fc_name = st.fc_name ∧ st1.fc_args = st.fc_args) ∧
    (d.content.isSome = true →
      st1.fc_name = st.fc_name ∧ st1.fc_args = st.fc_args) := by
  obtain ⟨dt, dh, dc, df⟩ := d
  by_cases hlate : t < dt
  · rw [consumeStep_eq_none_of_late t _ st hlate] at h
    exact absurd h (by simp)
  · cases dh with
    | false =>
      unfold consumeStep at h
      rw [if_neg hlate] at h
      dsimp only at h
      rw [if_pos (show (!false) = true from rfl)] at h
      simp only [Option.some.injEq, Prod.mk.injEq] at h
      obtain ⟨rfl, rfl⟩ := h
      exact ⟨by simp [deltaText], fun _ => ⟨rfl, rfl⟩, fun _ => ⟨rfl, rfl⟩⟩
    | true =>
      cases dc with
      | some tx =>
        unfold consumeStep at h
        rw [if_neg hlate] at h
        dsimp only at h
        rw [if_neg (show ¬((!true) = true) from by simp)] at h
        by_cases h20 : st.word_count + 1 ≥ 20
        · rw [if_pos h20] at h
          simp only [Option.some.injEq, Prod.mk.injEq] at h
          obtain ⟨rfl, rfl⟩ := h
          exact ⟨by simp [deltaText], fun _ => ⟨rfl, rfl⟩, fun _ => ⟨rfl, rfl⟩⟩
        · rw [if_neg h20] at h
          simp only [Option.some.injEq, Prod.mk.injEq] at h
          obtain ⟨rfl, rfl⟩ := h
          exact ⟨by simp [deltaText], fun _ => ⟨rfl, rfl⟩, fun _ => ⟨rfl, rfl⟩⟩
      | none =>
        cases df with
        | none =>
          unfold consumeStep at h
          rw [if_neg hlate] at h
          dsimp only at h
          rw [if_neg (show ¬((!true) = true) from by simp)] at h
          simp only [Option.some.injEq, Prod.mk.injEq] at h
          obtain ⟨rfl, rfl⟩ := h
          exact ⟨by simp [deltaText], fun _ => ⟨rfl, rfl⟩, fun _ => ⟨rfl, rfl⟩⟩
        | some fc =>
          unfold consumeStep at h
          rw [if_neg hlate] at h
          dsimp only at h
          rw [if_neg (show ¬((!true) = true) from by simp)] at h
          by_cases hce : st.content = []
          · rw [if_pos hce] at h
            simp only [Option.some.injEq, Prod.mk.injEq] at h
            obtain ⟨rfl, rfl⟩ := h
            exact ⟨by simp [deltaText], fun hne => absurd hce hne,
              fun hsome => by simp at hsome⟩
          · rw [if_neg hce] at h
            simp only [Option.some.injEq, Prod.mk.injEq] at h
            obtain ⟨rfl, rfl⟩ := h
            exact ⟨by simp [deltaText], fun _ => ⟨rfl, rfl⟩,
              fun hsome => by simp at hsome⟩

theorem consumeDeltas_cons_none (t : Nat) (d : Delta) (rest : List Delta)
    (st : StreamState) (hs : consumeStep t d st = none) :
    consumeDeltas t (d :: rest) st = (st, [], true) := by
  simp only [consumeDeltas, hs]

theorem consumeDeltas_cons_some (t : Nat) (d : Delta) (rest : List Delta)
    (st st1 : StreamState) (sp : Bool)
    (hs : consumeStep t d st = some (st1, sp)) :
    consumeDeltas t (d :: rest) st =
      ((consumeDeltas t rest st1).1,
       if sp then Event.spawnFlush :: (consumeDeltas t rest st1).2.1
       else (consumeDeltas t rest st1).2.1,
       (consumeDeltas t rest st1).2.2) := by
  simp only [consumeDeltas, hs]

theorem consumeDeltas_events_spawn (t : Nat) :
    ∀ (ds : List Delta) (st : StreamState),
      ∀ e ∈ (consumeDeltas t ds st).2.1, e = Event.spawnFlush := by
  intro ds
  induction ds with
  | nil =>
    intro st e he
    simp [consumeDeltas] at he
  | cons d rest ih =>
    intro st e he
    cases hs : consumeStep t d st with
    | none =>
      rw [consumeDeltas_cons_none t d rest st hs] at he
      simp at he
    | some p =>
      obtain ⟨st1, sp⟩ := p
      rw [consumeDeltas_cons_some t d rest st st1 sp hs] at he
      cases sp with
      | false => exact ih st1 e he
      | true =>
        rw [if_pos rfl] at he
        rcases List.mem_cons.mp he with rfl | hmem
        · rfl
        · exact ih st1 e hmem

theorem consumeDeltas_append_timeout (t : Nat) :
    ∀ (xs ys : List Delta) (st : StreamState),
      (consumeDeltas t xs st).2.2 = true →
      consumeDeltas t (xs ++ ys) st = consumeDeltas t xs st := by
  intro xs
  induction xs with
  | nil =>
    intro ys st h
    simp [consumeDeltas] at h
  | cons d rest ih =>
    intro ys st h
    rw [List.cons_append]
    cases hs : consumeStep t d st with
    | none =>
      rw [consumeDeltas_cons_none t d rest st hs,
          consumeDeltas_cons_none t d (rest ++ ys) st hs]
    | some p =>
      obtain ⟨st1, sp⟩ := p
      rw [consumeDeltas_cons_some t d rest st st1 sp hs] at h ⊢
      rw [consumeDeltas_cons_some t d (rest ++ ys) st st1 sp hs]
      rw [ih ys st1 h]

theorem consumeDeltas_append_no_timeout (t : Nat) :
    ∀ (xs ys : List Delta) (st : StreamState),
      (consumeDeltas t xs st).2.2 = false →
      consumeDeltas t (xs ++ ys) st =
        ((consumeDeltas t ys (consumeDeltas t xs st).1).1,
         (consumeDeltas t xs st).2.1 ++
           (consumeDeltas t ys (consumeDeltas t xs st).1).2.1,
         (consumeDeltas t ys (consumeDeltas t xs st).1).2.2) := by
  intro xs
  induction xs with
  | nil =>
    intro ys st _
    simp [consumeDeltas]
  | cons d rest ih =>
    intro ys st h
    rw [List.cons_append]
    cases hs : consumeStep t d st with
    | none =>
      rw [consumeDeltas_cons_none t d rest st hs] at h
      simp at h
    | some p =>
      obtain ⟨st1, sp⟩ := p
      rw [consumeDeltas_cons_some t d rest st st1 sp hs] at h ⊢
      rw [consumeDeltas_cons_some t d (rest ++ ys) st st1 sp hs]
      rw [ih ys st1 h]
      cases sp with
      | false => rfl
      | true => simp

theorem consumeDeltas_fc_frozen (t : Nat) :
    ∀ (ds : List Delta) (st : StreamState), st.content ≠ [] →
      (consumeDeltas t ds st).1.fc_name = st.fc_name ∧
      (consumeDeltas t ds st).1.fc_args = st.fc_args := by
  intro ds
  induction ds with
  | nil =>
    intro st _
    exact ⟨rfl, rfl⟩
  | cons d rest ih =>
    intro st hne
    cases hs : consumeStep t d st with
    | none =>
      rw [consumeDeltas_cons_none t d rest st hs]
      exact ⟨rfl, rfl⟩
    | some p =>
      obtain ⟨st1, sp⟩ := p
      obtain ⟨hcon, hfc, -⟩ := consumeStep_spec t d st st1 sp hs
      have hne1 : st1.content ≠ [] := by
        rw [hcon]
        intro hap
        exact hne (List.append_eq_nil.mp hap).1
      rw [consumeDeltas_cons_some t d rest st st1 sp hs]
      obtain ⟨hn, ha⟩ := ih st1 hne1
      obtain ⟨hn1, ha1⟩ := hfc hne
      exact ⟨hn.trans hn1, ha.trans ha1⟩

theorem consumeDeltas_no_timeout (t : Nat) :
    ∀ (ds : List Delta) (st : StreamState), (∀ d ∈ ds, d.time ≤ t) →
      (consumeDeltas t ds st).2.2 = false := by
  intro ds
  induction ds with
  | nil =>
    intro st _
    rfl
  | cons d rest ih =>
    intro st h
    have hd : d.time ≤ t := h d (List.mem_cons_self d rest)
    have hrest : ∀ x ∈ rest, x.time ≤ t :=
      fun x hx => h x (List.mem_cons_of_mem d hx)
    cases hs : consumeStep t d st with
    | none => exact absurd hs (consumeStep_ne_none t d st (by omega))
    | some p =>
      obtain ⟨st1, sp⟩ := p
      rw [consumeDeltas_cons_some t d rest st st1 sp hs]
      exact ih st1 hrest

theorem streamContent_cons (d : Delta) (rest : List Delta) :
    streamContent (d :: rest) = deltaText d ++ streamContent rest := by
  unfold streamContent deltaText
  rw [List.filterMap_cons]
  by_cases hch : d.hasChoices
  · rw [if_pos hch, if_pos hch]
    cases hcon : d.content with
    | some tx => simp
    | none => simp
  · rw [if_neg hch, if_neg hch]
    simp

theorem consumeDeltas_content (t : Nat) :
    ∀ (ds : List Delta) (st : StreamState), (∀ d ∈ ds, d.time ≤ t) →
      (consumeDeltas t ds st).1.content = st.content ++ streamContent ds := by
  intro ds
  induction ds with
  | nil =>
    intro st _
    simp [consumeDeltas, streamContent]
  | cons d rest ih =>
    intro st h
    have hd : d.time ≤ t := h d (List.mem_cons_self d rest)
    have hrest : ∀ x ∈ rest, x.time ≤ t :=
      fun x hx => h x (List.mem_cons_of_mem d hx)
    cases hs : consumeStep t d st with
    | none => exact absurd hs (consumeStep_ne_none t d st (by omega))
    | some p =>
      obtain ⟨st1, sp⟩ := p
      obtain ⟨hcon, -⟩ := consumeStep_spec t d st st1 sp hs
      rw [consumeDeltas_cons_some t d rest st st1 sp hs]
      rw [ih st1 hrest, hcon, streamContent_cons]
      simp

theorem consumeDeltas_timeout_of_late (t : Nat) :
    ∀ (ds : List Delta) (st : StreamState), (∃ d ∈ ds, t < d.time) →
      (consumeDeltas t ds st).2.2 = true := by
  intro ds
  induction ds with
  | nil =>
    intro st h
    simp at h
  | cons d rest ih =>
    intro st h
    by_cases hd : t < d.time
    · rw [consumeDeltas_cons_none t d rest st
        (consumeStep_eq_none_of_late t d st hd)]
    · have hrest : ∃ x ∈ rest, t < x.time := by
        rcases h with ⟨x, hx, hxt⟩
        rcases List.mem_cons.mp hx with rfl | hx2
        · exact absurd hxt hd
        · exact ⟨x, hx2, hxt⟩
      cases hs : consumeStep t d st with
      | none => exact absurd hs (consumeStep_ne_none t d st hd)
      | some p =>
        obtain ⟨st1, sp⟩ := p
        rw [consumeDeltas_cons_some t d rest st st1 sp hs]
        exact ih st1 hrest

/-- Unfolding of `consume` with its local binding inlined. -/
theorem consume_unfold (timeout : Nat) (deltas : List Delta) :
    consume timeout deltas =
      (if (consumeDeltas timeout deltas initState).2.2 = true then
        ((consumeDeltas timeout deltas initState).2.1 ++ [Event.joinAll],
         Outcome.timeout)
      else if (consumeDeltas timeout deltas initState).1.fc_name ≠ [] then
        ((consumeDeltas timeout deltas initState).2.1 ++
           [Event.joinAll, Event.joinAll],
         Outcome.functionCall (consumeDeltas timeout deltas initState).1.fc_name
           (consumeDeltas timeout deltas initState).1.fc_args)
      else
        ((consumeDeltas timeout deltas initState).2.1 ++
           [Event.joinAll,
            Event.finalFlush (consumeDeltas timeout deltas initState).1.content,
            Event.joinAll],
         Outcome.done)) := rfl

/-! ## Claim C4 -/

/-- C4, counterexample: a content delta whose text is the empty string
precedes the function-call delta, yet the function-call branch still triggers
and buffers the name `"f"` — the code guards on `assistant_reply["content"]
== ""`, not on "no content delta was seen". -/
theorem function_call_after_content_counterexample :
    (consumeDeltas 5
      [Delta.mk 0 true (some []) none,
       Delta.mk 0 true none (some (['f'], []))] initState).1.fc_name = ['f'] ∧
    (Delta.mk 0 true (some []) none).content.isSome = true := by
  constructor
  · decide
  · rfl

/-- C4 (amended): a function-call delta is accepted into the buffer only while
the accumulated content text is still empty; since content only grows, once a
content delta with nonempty text has been consumed the function-call branch
never triggers again — the buffer keeps exactly the value accumulated before
that delta.  (A content delta carrying the empty string does not block the
branch, because the accumulated text is still empty then.) -/
theorem function_call_only_while_content_empty :
    (∀ (timeout : Nat) (ds : List Delta) (st : StreamState),
      st.content ≠ [] →
      (consumeDeltas timeout ds st).1.fc_name = st.fc_name) ∧
    (∀ (timeout : Nat) (pre post : List Delta) (d : Delta) (tx : List Char),
      d.hasChoices = true → d.content = some tx → tx ≠ [] →
      (consumeDeltas timeout (pre ++ d :: post) initState).1.fc_name =
        (consumeDeltas timeout pre initState).1.fc_name) := by
  constructor
  · intro timeout ds st hne
    exact (consumeDeltas_fc_frozen timeout ds st hne).1
  · intro timeout pre post d tx hch hc htx
    cases hflag : (consumeDeltas timeout pre initState).2.2 with
    | true =>
      rw [consumeDeltas_append_timeout timeout pre (d :: post) initState hflag]
    | false =>
      rw [consumeDeltas_append_no_timeout timeout pre (d :: post) initState
        hflag]
      show (consumeDeltas timeout (d :: post)
          (consumeDeltas timeout pre initState).1).1.fc_name = _
      set S := (consumeDeltas timeout pre initState).1 with hS
      cases hs : consumeStep timeout d S with
      | none => rw [consumeDeltas_cons_none timeout d post S hs]
      | some p =>
        obtain ⟨st1, sp⟩ := p
        obtain ⟨hcon, -, hfc⟩ := consumeStep_spec timeout d S st1 sp hs
        have hdt : deltaText d = tx := by simp [deltaText, hch, hc]
        have hne1 : st1.content ≠ [] := by
          rw [hcon, hdt]
          intro hap
          exact htx (List.append_eq_nil.mp hap).2
        rw [consumeDeltas_cons_some timeout d post S st1 sp hs]
        show (consumeDeltas timeout post st1).1.fc_name = S.fc_name
        rw [(consumeDeltas_fc_frozen timeout post st1 hne1).1]
        exact (hfc (by rw [hc]; rfl)).1

/-- C4, witness: the amended theorem applied to a run in which a function-call
delta is buffered, then a nonempty content delta arrives, then a further
function-call delta is ignored. -/
theorem function_call_only_while_content_empty_witness :
    (Delta.mk 1 true (some ['H']) none).hasChoices = true ∧
    (Delta.mk 1 true (some ['H']) none).content = some ['H'] ∧
    (['H'] : List Char) ≠ [] ∧
    (consumeDeltas 9
        ([Delta.mk 0 true none (some (['f'], ['x']))] ++
          Delta.mk 1 true (some ['H']) none ::
            [Delta.mk 2 true none (some (['g'], []))]) initState).1.fc_name =
      (consumeDeltas 9 [Delta.mk 0 true none (some (['f'], ['x']))]
        initState).1.fc_name :=
  ⟨rfl, rfl, by decide,
   function_call_only_while_content_empty.2 9
     [Delta.mk 0 true none (some (['f'], ['x']))]
     [Delta.mk 2 true none (some (['g'], []))]
     (Delta.mk 1 true (some ['H']) none) ['H'] rfl rfl (by decide)⟩

/-! ## Claim C5 -/

/-- C5: for every stream that stays within the timeout and completes without a
function call, the consumption run emits some number of background flush
spawns, then joins them all, then performs exactly one final synchronous flush
whose content is the full accumulated text (the ordered concatenation of all
content deltas) with no in-progress indicator, and nothing but the idempotent
re-join of the `finally` block happens after it. -/
theorem stream_done_single_final_flush (timeout : Nat) (deltas : List Delta)
    (h1 : ∀ d ∈ deltas, d.time ≤ timeout)
    (h2 : (consumeDeltas timeout deltas initState).1.fc_name = []) :
    ∃ n, consume timeout deltas =
      (List.replicate n Event.spawnFlush ++
        [Event.joinAll, Event.finalFlush (streamContent deltas),
         Event.joinAll],
       Outcome.done) := by
  refine ⟨(consumeDeltas timeout deltas initState).2.1.length, ?_⟩
  have hflag := consumeDeltas_no_timeout timeout deltas initState h1
  have hcontent : (consumeDeltas timeout deltas initState).1.content =
      streamContent deltas := by
    rw [consumeDeltas_content timeout deltas initState h1]
    rfl
  have hev : (consumeDeltas timeout deltas initState).2.1 =
      List.replicate (consumeDeltas timeout deltas initState).2.1.length
        Event.spawnFlush :=
    List.eq_replicate_length.mpr
      (consumeDeltas_events_spawn timeout deltas initState)
  rw [consume_unfold]
  rw [if_neg (by rw [hflag]; exact Bool.false_ne_true)]
  rw [if_neg (fun hne => hne h2)]
  rw [hcontent]
  rw [show (consumeDeltas timeout deltas initState).2.1 ++
        [Event.joinAll, Event.finalFlush (streamContent deltas),
         Event.joinAll] =
      List.replicate (consumeDeltas timeout deltas initState).2.1.length
          Event.spawnFlush ++
        [Event.joinAll, Event.finalFlush (streamContent deltas),
         Event.joinAll] from by rw [← hev]]

/-- C5, witness: the spec's Scenario 3 — deltas `"Hello"`, `" world"` within
the timeout produce exactly one final flush carrying `"Hello world"`. -/
theorem stream_done_single_final_flush_witness :
    (∀ d ∈ [Delta.mk 0 true (some ("Hello".toList)) none,
            Delta.mk 1 true (some (" world".toList)) none], d.time ≤ 5) ∧
    ((consumeDeltas 5
        [Delta.mk 0 true (some ("Hello".toList)) none,
         Delta.mk 1 true (some (" world".toList)) none]
        initState).1.fc_name = []) ∧
    ∃ n, consume 5
        [Delta.mk 0 true (some ("Hello".toList)) none,
         Delta.mk 1 true (some (" world".toList)) none] =
      (List.replicate n Event.spawnFlush ++
        [Event.joinAll,
         Event.finalFlush (streamContent
           [Delta.mk 0 true (some ("Hello".toList)) none,
            Delta.mk 1 true (some (" world".toList)) none]),
         Event.joinAll],
       Outcome.done) :=
  ⟨by decide, by decide,
   stream_done_single_final_flush 5
     [Delta.mk 0 true (some ("Hello".toList)) none,
      Delta.mk 1 true (some (" world".toList)) none]
     (by decide) (by decide)⟩

/-! ## Claim C6 -/

/-- C6: whenever some chunk arrives after the configured timeout has elapsed,
the consumer aborts the run with the timeout error, and the trace ends with
the join of every background flush spawned during the run — the joins happen
in the `finally` block before the error propagates, and no terminal flush is
performed. -/
theorem stream_timeout_joins_then_aborts (timeout : Nat)
    (deltas : List Delta) (h : ∃ d ∈ deltas, timeout < d.time) :
    ∃ n, consume timeout deltas =
      (List.replicate n Event.spawnFlush ++ [Event.joinAll],
       Outcome.timeout) := by
  refine ⟨(consumeDeltas timeout deltas initState).2.1.length, ?_⟩
  have hflag := consumeDeltas_timeout_of_late timeout deltas initState h
  have hev : (consumeDeltas timeout deltas initState).2.1 =
      List.replicate (consumeDeltas timeout deltas initState).2.1.length
        Event.spawnFlush :=
    List.eq_replicate_length.mpr
      (consumeDeltas_events_spawn timeout deltas initState)
  rw [consume_unfold, if_pos hflag]
  rw [show (consumeDeltas timeout deltas initState).2.1 ++ [Event.joinAll] =
      List.replicate (consumeDeltas timeout deltas initState).2.1.length
          Event.spawnFlush ++ [Event.joinAll] from by rw [← hev]]

/-- C6, witness: the spec's Scenario 5 — with a 5-second timeout and a chunk
arriving at 6 seconds, the run aborts with the timeout outcome after joining
all flushes. -/
theorem stream_timeout_joins_then_aborts_witness :
    (∃ d ∈ [Delta.mk 6 true (some ['a']) none], 5 < d.time) ∧
    ∃ n, consume 5 [Delta.mk 6 true (some ['a']) none] =
      (List.replicate n Event.spawnFlush ++ [Event.joinAll],
       Outcome.timeout) :=
  ⟨by decide,
   stream_timeout_joins_then_aborts 5 [Delta.mk 6 true (some ['a']) none]
     (by decide)⟩

end Slaick
